import Mathlib

/-!
Verification of the catalog / playback-queue logic of the `reproductor` music
player (src/app.py).  The Python methods are shallowly embedded as Lean
functions: the track list, the current index, the random mode and the pending
random queue become an explicit state record, and the only effectful
ingredient, `random.shuffle`, becomes a function parameter that is assumed to
permute its input.  String helpers model the corresponding Python string
operations on plain character lists so that every definition evaluates inside
the kernel.
-/

namespace Reproductor

/-- A loaded track, mirroring the dicts stored in `self.tracks`:
fields `artista`, `cancion`, `url`. -/
structure Track where
  artista : String
  cancion : String
  url : String
deriving DecidableEq

/-- A raw entry of the parsed `tracks.json` list.  Entries that are not JSON
objects are represented by `notDict` (the loop skips them); objects carry the
three optional string fields, `none` standing for an absent key and
`some` for a present string value. -/
inductive RawRecord where
  | notDict
  | obj (artista cancion url : Option String)
deriving DecidableEq

/-- Model of the Python idiom `value or default` applied to an optional
string field: absent keys and empty strings fall back to the default. -/
def orDefault (v : Option String) (d : String) : String :=
  match v with
  | none => d
  | some s => if s = ("") then d else s

/-- Model of Python `str.lower()` (ASCII case folding, as used by the
comparisons in the source). -/
def pyLower (s : String) : String :=
  String.mk (s.data.map Char.toLower)

/-- Model of Python `str.strip()`: remove whitespace from both ends. -/
def pyStrip (s : String) : String :=
  String.mk (((s.data.dropWhile Char.isWhitespace).reverse.dropWhile Char.isWhitespace).reverse)

/-- Conversion of one raw record into a stored track, following the body of
the loading loop in `_scan_and_load`: non-dict entries are skipped, the three
fields get their defaults and are stripped. -/
def toTrack : RawRecord → Option Track
  | RawRecord.notDict => none
  | RawRecord.obj a c u =>
      some { artista := pyStrip (orDefault a ("(Desconocido)"))
             cancion := pyStrip (orDefault c ("(Sin título)"))
             url := pyStrip (orDefault u ("")) }

/-- The sort key used by `self.tracks.sort`: the pair of lowercased artist
and lowercased title. -/
def trackKey (t : Track) : String × String :=
  (pyLower t.artista, pyLower t.cancion)

/-- Strict lexicographic comparison of character lists by code point, which
is how Python compares strings. -/
def charListLt : List Char → List Char → Bool
  | [], [] => false
  | [], _ :: _ => true
  | _ :: _, [] => false
  | a :: as, b :: bs =>
      if a.toNat < b.toNat then true
      else if b.toNat < a.toNat then false
      else charListLt as bs

/-- Non-strict lexicographic comparison of character lists. -/
def charListLe (x y : List Char) : Bool :=
  charListLt x y || x == y

/-- The Boolean ordering induced by the Python tuple comparison of the sort
keys: lexicographic on (lowercased artist, lowercased title). -/
def keyLeB (a b : Track) : Bool :=
  charListLt (pyLower a.artista).data (pyLower b.artista).data ||
    ((pyLower a.artista).data == (pyLower b.artista).data &&
      charListLe (pyLower a.cancion).data (pyLower b.cancion).data)

/-- The sort relation of the track list, as a proposition. -/
def keyLE (a b : Track) : Prop :=
  keyLeB a b = true

instance : DecidableRel keyLE := fun a b => by
  unfold keyLE
  infer_instance

/-- The pure part of `_scan_and_load`: convert the raw entries (skipping
non-objects) and sort stably by `trackKey`.  Python's `list.sort` is a stable
sort by key; it is modelled by `insertionSort`, which Mathlib proves stable. -/
def scan_and_load (data : List RawRecord) : List Track :=
  List.insertionSort keyLE (data.filterMap toTrack)

/-- Substring test on character lists: `isPrefixList needle hay` holds when
`needle` is an initial segment of `hay`. -/
def isPrefixList : List Char → List Char → Bool
  | [], _ => true
  | _ :: _, [] => false
  | a :: as, b :: bs => a = b && isPrefixList as bs

/-- Model of the Python substring test `needle in hay`. -/
def containsSub (needle : List Char) : List Char → Bool
  | [] => needle.isEmpty
  | c :: rest => isPrefixList needle (c :: rest) || containsSub needle rest

/-- The state read by `_filtered_indices`: the track list and the current
(stripped) search text. -/
structure FState where
  tracks : List Track
  search_text : String
deriving DecidableEq

/-- Model of `_on_search_changed`: store the stripped text. -/
def on_search_changed (st : FState) (text : String) : FState :=
  { st with search_text := pyStrip text }

/-- Model of `_filtered_indices`: all indices when the search text is empty,
otherwise the indices whose artist or title contains the lowercased query. -/
def filtered_indices (st : FState) : List Nat :=
  if st.search_text = ("") then List.range st.tracks.length
  else
    let q := pyLower st.search_text
    ((st.tracks.enum).filter (fun p =>
        containsSub q.data (pyLower p.2.artista).data ||
          containsSub q.data (pyLower p.2.cancion).data)).map Prod.fst

/-- The components of a parsed URL that `_youtube_id` reads. -/
structure UrlParts where
  scheme : List Char
  netloc : List Char
  path : List Char
  query : List Char
deriving DecidableEq

/-- Characters allowed in a URL scheme. -/
def isSchemeChar (c : Char) : Bool :=
  c.isAlpha || c.isDigit || c = '+' || c = '-' || c = '.'

/-- Split a character list at the first occurrence of a separator: the part
before it, and (when the separator occurs) the part after it. -/
def breakAt (c : Char) : List Char → List Char × Option (List Char)
  | [] => ([], none)
  | x :: xs =>
      if x = c then ([], some xs)
      else
        let r := breakAt c xs
        (x :: r.1, r.2)

/-- Model of Python `str.split(sep)` for a one-character separator: always at
least one (possibly empty) piece. -/
def splitOnChar (c : Char) : List Char → List (List Char)
  | [] => [[]]
  | x :: xs =>
      if x = c then [] :: splitOnChar c xs
      else
        match splitOnChar c xs with
        | [] => [[x]]
        | h :: t => (x :: h) :: t

/-- Model of `urllib.parse.urlparse` restricted to the fields the player
reads: detect a scheme (lowercased) when a colon follows a valid scheme name,
read a netloc after a double slash up to the next slash, question mark or
hash, drop the fragment, and split the query off at the first question
mark.  Parameter splitting and percent decoding are not modelled; the inputs
in this development contain neither. -/
def urlparse (url : String) : UrlParts :=
  let l := url.data
  let sr := breakAt ':' l
  let schemeRest : List Char × List Char :=
    match sr.2 with
    | some r =>
        match sr.1 with
        | [] => ([], l)
        | c0 :: cs =>
            if c0.isAlpha && (c0 :: cs).all isSchemeChar then
              ((c0 :: cs).map Char.toLower, r)
            else ([], l)
    | none => ([], l)
  let rest := schemeRest.2
  let netlocRest : List Char × List Char :=
    match rest with
    | '/' :: '/' :: r =>
        (r.takeWhile (fun c => !(c = '/' || c = '?' || c = '#')),
         r.dropWhile (fun c => !(c = '/' || c = '?' || c = '#')))
    | _ => ([], rest)
  let beforeFrag := (breakAt '#' netlocRest.2).1
  let pq := breakAt '?' beforeFrag
  { scheme := schemeRest.1
    netloc := netlocRest.1
    path := pq.1
    query := pq.2.getD [] }

/-- Strip a given character from both ends, as Python `str.strip(chars)`
with a one-character argument. -/
def stripChar (c : Char) (l : List Char) : List Char :=
  ((l.dropWhile (· = c)).reverse.dropWhile (· = c)).reverse

/-- Model of `parse_qs(query).get(key, [None])[0]` for a single-character
key: the first non-empty value bound to the key, where pairs are separated by
ampersands and a pair without an equals sign or with an empty value is
dropped.  Percent decoding is not modelled; the inputs in this development do
not use it. -/
def parse_qs_first (key : List Char) (query : List Char) : Option (List Char) :=
  let kvs := (splitOnChar '&' query).filterMap (fun p =>
    match breakAt '=' p with
    | (_, none) => none
    | (name, some value) => if value.isEmpty then none else some (name, value))
  (kvs.find? (fun kv => kv.1 == key)).map (fun kv => kv.2)

def kwYoutuBe : List Char := ("youtu.be").data

def kwYoutubeCom : List Char := ("youtube.com").data

def pWatch : List Char := ("/watch").data

def pShorts : List Char := ("/shorts/").data

def pEmbed : List Char := ("/embed/").data

/-- Model of `_youtube_id`: extract a video id from the recognized URL
shapes, or return `none`.  The Python function can also return the empty
string (for example a shorts path with nothing after the second slash); that
is modelled by `some` of the empty string, matching the falsy check at the
call site. -/
def youtube_id (url : String) : Option String :=
  let u := urlparse url
  let host := u.netloc.map Char.toLower
  if containsSub kwYoutuBe host then
    match stripChar '/' u.path with
    | [] => none
    | l => some (String.mk l)
  else if containsSub kwYoutubeCom host then
    if u.path = pWatch then
      (parse_qs_first [('v')] u.query).map String.mk
    else if isPrefixList pShorts u.path then
      match splitOnChar '/' u.path with
      | _ :: _ :: x :: _ => some (String.mk x)
      | _ => none
    else if isPrefixList pEmbed u.path then
      match splitOnChar '/' u.path with
      | _ :: _ :: x :: _ => some (String.mk x)
      | _ => none
    else none
  else none

/-- The playback state of the player: the loaded tracks, the current index
(minus one when nothing has been played, as in the source), the random mode
flag and the pending random queue. -/
structure PState where
  tracks : List Track
  current_index : Int
  random_mode : Bool
  random_queue : List Int
deriving DecidableEq

/-- Outcome of an attempt to play an index: silently ignored (out of range),
a reported resolution error (unusable URL), or playback of the escaped id. -/
inductive PlayResult where
  | ignored
  | resolveError
  | played (vid : String)
deriving DecidableEq

/-- Model of the escaping step `vid.replace(chr(39), chr(92) + chr(39))`
applied before the id is embedded in the JavaScript call. -/
def escapeQuotes (s : String) : String :=
  String.mk (s.data.foldr (fun c acc => (if c = '\'' then ['\\', '\''] else [c]) ++ acc) [])

/-- Model of `_play_index`: a no-op outside the catalog range; otherwise the
current index is updated, and the URL is resolved, a falsy result (absent or
empty id) being reported as a per-attempt error. -/
def play_index (st : PState) (index : Int) : PState × PlayResult :=
  if 0 ≤ index ∧ index < (st.tracks.length : Int) then
    match youtube_id (st.tracks.getD index.toNat
        { artista := (""), cancion := (""), url := ("") }).url with
    | none => ({ st with current_index := index }, PlayResult.resolveError)
    | some vid =>
        if vid = ("") then ({ st with current_index := index }, PlayResult.resolveError)
        else ({ st with current_index := index }, PlayResult.played (escapeQuotes vid))
  else (st, PlayResult.ignored)

/-- Model of `_prepare_random_queue`: copy the pool, remove the excluded
index when it is given, present and the pool has more than one element, then
shuffle.  The call to `random.shuffle` is the function parameter. -/
def prepare_random_queue (shuf : List Int → List Int) (pool : List Int)
    (exclude : Option Int) : List Int :=
  shuf (match exclude with
        | some e => if e ∈ pool ∧ 1 < pool.length then pool.erase e else pool
        | none => pool)

/-- Model of `_get_next_random_index`: pop the front of the queue, returning
nothing on an empty queue. -/
def get_next_random_index : List Int → Option Int × List Int
  | [] => (none, [])
  | x :: xs => (some x, xs)

/-- The pool used by `_on_next`: the visible rows, falling back to the full
track range when no row is visible. -/
def default_pool (n : Nat) : List Int :=
  (List.range n).map Int.ofNat

/-- The cyclic-successor computation shared by the non-random branch and the
random fallback of `_on_next`: the element after the first occurrence of the
current index, wrapping around, or the head of the pool when the current
index does not occur. -/
def cyclic_next (pool : List Int) (c : Int) : Int :=
  if c ∈ pool then pool.getD ((pool.indexOf c + 1) % pool.length) 0
  else pool.getD 0 0

/-- The random branch of `_on_next`: refill the queue when it is exhausted
(excluding the current index), pop the next index, and fall back to the
cyclic successor when even the refilled queue yields nothing. -/
def on_next_random (shuf : List Int → List Int) (pool : List Int) (st : PState) :
    Option Int × PState :=
  let st1 :=
    if st.random_queue.isEmpty then
      { st with random_queue := prepare_random_queue shuf pool (some st.current_index) }
    else st
  let pr := get_next_random_index st1.random_queue
  let st2 := { st1 with random_queue := pr.2 }
  match pr.1 with
  | some nxt => (some nxt, (play_index st2 nxt).1)
  | none =>
      let nxt := cyclic_next pool st2.current_index
      (some nxt, (play_index st2 nxt).1)

/-- Model of `_on_next`.  The visible order of the table is the parameter
`visible`; the shuffle performed on a queue refill is the parameter `shuf`.
Returns the index handed to `_play_index` (or `none` on the early return for
an empty catalog) together with the state after the call. -/
def on_next (shuf : List Int → List Int) (visible : List Int) (st : PState) :
    Option Int × PState :=
  if st.tracks.isEmpty then (none, st)
  else
    let pool := if visible.isEmpty then default_pool st.tracks.length else visible
    if st.random_mode then on_next_random shuf pool st
    else
      let nxt := cyclic_next pool st.current_index
      (some nxt, (play_index st nxt).1)

/-- Model of `_on_toggle_random`: enabling prepares a fresh queue from the
visible pool excluding the current index; disabling clears the queue. -/
def on_toggle_random (shuf : List Int → List Int) (visible : List Int)
    (st : PState) (checked : Bool) : PState :=
  if checked then
    let pool := if visible.isEmpty then default_pool st.tracks.length else visible
    { st with random_mode := true
              random_queue := prepare_random_queue shuf pool (some st.current_index) }
  else { st with random_mode := false, random_queue := [] }

/-- Iterate `_on_next` a given number of times, recording the index played at
each step; the shuffle used at the k-th refill is `shufs k`. -/
def run_next (shufs : Nat → List Int → List Int) (visible : List Int) :
    Nat → PState → List (Option Int)
  | 0, _ => []
  | k + 1, st =>
      let r := on_next (shufs 0) visible st
      r.1 :: run_next (fun n => shufs (n + 1)) visible k r.2

/-- The queue invariant maintained by the random mode: the pending queue has
no duplicates, does not contain the current index, and only contains visible
indices. -/
def queue_inv (visible : List Int) (st : PState) : Prop :=
  st.random_queue.Nodup ∧ st.current_index ∉ st.random_queue ∧
    st.random_queue ⊆ visible

/-! ### Order lemmas for the sort relation -/

theorem charListLt_trichotomy : ∀ x y : List Char,
    charListLt x y = true ∨ x = y ∨ charListLt y x = true
  | [], [] => Or.inr (Or.inl rfl)
  | [], _ :: _ => Or.inl rfl
  | _ :: _, [] => Or.inr (Or.inr rfl)
  | a :: as, b :: bs => by
    rcases Nat.lt_trichotomy a.toNat b.toNat with h | h | h
    · left
      simp [charListLt, h]
    · have hab : a = b := Char.ext (UInt32.toNat.inj h)
      subst hab
      rcases charListLt_trichotomy as bs with h2 | h2 | h2
      · left
        simp [charListLt, h2]
      · right; left
        simp [h2]
      · right; right
        simp [charListLt, h2]
    · right; right
      simp [charListLt, h]

theorem charListLt_trans : ∀ {x y z : List Char},
    charListLt x y = true → charListLt y z = true → charListLt x z = true
  | [], [], _, hxy, _ => nomatch hxy
  | _ :: _, [], _, hxy, _ => nomatch hxy
  | [], _ :: _, [], _, hyz => nomatch hyz
  | _ :: _, _ :: _, [], _, hyz => nomatch hyz
  | [], _ :: _, _ :: _, _, _ => rfl
  | a :: as, b :: bs, c :: cs, hxy, hyz => by
    simp only [charListLt] at hxy hyz ⊢
    by_cases h1 : a.toNat < b.toNat
    · by_cases h2 : b.toNat < c.toNat
      · simp [Nat.lt_trans h1 h2]
      · by_cases h3 : c.toNat < b.toNat
        · simp [h2, h3] at hyz
        · have hac : a.toNat < c.toNat := by omega
          simp [hac]
    · by_cases h4 : b.toNat < a.toNat
      · simp [h1, h4] at hxy
      · by_cases h2 : b.toNat < c.toNat
        · have hac : a.toNat < c.toNat := by omega
          simp [hac]
        · by_cases h3 : c.toNat < b.toNat
          · simp [h2, h3] at hyz
          · have h5 : ¬ a.toNat < c.toNat := by omega
            have h6 : ¬ c.toNat < a.toNat := by omega
            simp only [if_neg h1, if_neg h4] at hxy
            simp only [if_neg h2, if_neg h3] at hyz
            simp only [if_neg h5, if_neg h6]
            exact charListLt_trans hxy hyz

theorem charListLe_trans {x y z : List Char}
    (hxy : charListLe x y = true) (hyz : charListLe y z = true) :
    charListLe x z = true := by
  simp only [charListLe, Bool.or_eq_true, beq_iff_eq] at hxy hyz ⊢
  rcases hxy with h1 | h1
  · rcases hyz with h2 | h2
    · exact Or.inl (charListLt_trans h1 h2)
    · exact Or.inl (h2 ▸ h1)
  · rcases hyz with h2 | h2
    · exact Or.inl (h1 ▸ h2)
    · exact Or.inr (h1.trans h2)

theorem keyLE_total (a b : Track) : keyLE a b ∨ keyLE b a := by
  unfold keyLE keyLeB
  rcases charListLt_trichotomy (pyLower a.artista).data (pyLower b.artista).data with h | h | h
  · left
    simp [h]
  · rcases charListLt_trichotomy (pyLower a.cancion).data (pyLower b.cancion).data
      with h2 | h2 | h2
    · left
      simp [h, charListLe, h2]
    · left
      simp [h, charListLe, h2]
    · right
      simp [h.symm, charListLe, h2]
  · right
    simp [h]

theorem keyLE_trans (a b c : Track) (hab : keyLE a b) (hbc : keyLE b c) : keyLE a c := by
  unfold keyLE keyLeB at hab hbc ⊢
  simp only [Bool.or_eq_true, Bool.and_eq_true, beq_iff_eq] at hab hbc ⊢
  rcases hab with h1 | ⟨h1, h1c⟩
  · rcases hbc with h2 | ⟨h2, _⟩
    · exact Or.inl (charListLt_trans h1 h2)
    · exact Or.inl (h2 ▸ h1)
  · rcases hbc with h2 | ⟨h2, h2c⟩
    · exact Or.inl (h1 ▸ h2)
    · exact Or.inr ⟨h1.trans h2, charListLe_trans h1c h2c⟩

/-! ### Basic facts about the playback operations -/

theorem play_index_fst_of_valid (st : PState) (i : Int) (h0 : 0 ≤ i)
    (h1 : i < (st.tracks.length : Int)) :
    (play_index st i).1 = { st with current_index := i } := by
  unfold play_index
  rw [if_pos ⟨h0, h1⟩]
  split
  · rfl
  · split
    · rfl
    · rfl

/-! ### Claim theorems -/

/-- C9: an out-of-range index is a no-op for `_play_index` (nothing raised,
state unchanged, attempt ignored), and popping the next random index from an
empty queue yields nothing rather than an error. -/
theorem c9_out_of_range_noop (st : PState) (index : Int)
    (h : index < 0 ∨ (st.tracks.length : Int) ≤ index) :
    play_index st index = (st, PlayResult.ignored) ∧
      get_next_random_index [] = (none, ([] : List Int)) := by
  constructor
  · unfold play_index
    rw [if_neg (by omega)]
  · rfl

theorem c9_witness :
    play_index
        { tracks := [], current_index := -1, random_mode := false, random_queue := [] } 0 =
      ({ tracks := [], current_index := -1, random_mode := false, random_queue := [] },
        PlayResult.ignored) ∧
      get_next_random_index [] = (none, ([] : List Int)) :=
  c9_out_of_range_noop _ 0 (Or.inr (by decide))

/-- C8: setting the empty filter, then any filter text, then the empty
filter again reproduces the visible set of the first step, namely all
catalog indices in catalog order. -/
theorem c8_filter_round_trip (st : FState) (text : String) :
    filtered_indices
        (on_search_changed (on_search_changed (on_search_changed st ("")) text) ("")) =
      filtered_indices (on_search_changed st ("")) ∧
    filtered_indices (on_search_changed st ("")) = List.range st.tracks.length := by
  refine ⟨rfl, ?_⟩
  simp [filtered_indices, on_search_changed, pyStrip]

/-- C5 counterexample: a record with no url key is not excluded by loading;
it is kept with an empty stored url. -/
theorem c5_counterexample :
    scan_and_load [RawRecord.obj (some ("x")) (some ("y")) none] =
      [{ artista := ("x"), cancion := ("y"), url := ("") }] := by
  decide

/-- C5 amended: loading skips only entries that are not objects; every
object record is converted (defaults applied, fields stripped) and kept in
the catalog, the output being a permutation of the converted records.  In
particular a record lacking a url is kept, with the empty string stored as
its reference. -/
theorem c5_amended (data : List RawRecord) :
    (scan_and_load data).Perm (data.filterMap toTrack) ∧
      ∀ a c : Option String, ∃ t : Track,
        toTrack (RawRecord.obj a c none) = some t ∧ t.url = ("") := by
  constructor
  · exact List.perm_insertionSort keyLE _
  · intro a c
    refine ⟨_, rfl, ?_⟩
    show pyStrip (orDefault none ("")) = ("")
    decide

/-- C6 counterexample: playing an in-range track whose reference does not
resolve still moves `current_index` to the attempted index, so the playback
state does not survive the failed attempt unchanged. -/
theorem c6_counterexample :
    ((play_index
          { tracks := [{ artista := ("a"), cancion := ("b"), url := ("https://youtu.be/ok") },
                       { artista := ("c"), cancion := ("d"), url := ("") }],
            current_index := 0, random_mode := false, random_queue := [] } 1).1).current_index = 1 ∧
      (1 : Int) ≠ 0 := by
  decide

/-- C6 amended: when the attempted index is in range and its reference does
not resolve (no id, or the falsy empty id), the error is reported for that
attempt only (result `resolveError`, nothing raised) and `current_index` is
set to the attempted index, hence stays a valid catalog index. -/
theorem c6_amended (st : PState) (index : Int) (h0 : 0 ≤ index)
    (h1 : index < (st.tracks.length : Int))
    (hres : youtube_id (st.tracks.getD index.toNat
          { artista := (""), cancion := (""), url := ("") }).url = none ∨
        youtube_id (st.tracks.getD index.toNat
          { artista := (""), cancion := (""), url := ("") }).url = some ("")) :
    play_index st index = ({ st with current_index := index }, PlayResult.resolveError) ∧
      0 ≤ ((play_index st index).1).current_index ∧
      ((play_index st index).1).current_index < (st.tracks.length : Int) := by
  have hmain : play_index st index =
      ({ st with current_index := index }, PlayResult.resolveError) := by
    unfold play_index
    rw [if_pos ⟨h0, h1⟩]
    rcases hres with h | h
    · rw [h]
    · rw [h]
      simp
  refine ⟨hmain, ?_, ?_⟩
  · rw [hmain]
    exact h0
  · rw [hmain]
    exact h1

theorem c6_witness :
    play_index
        { tracks := [{ artista := ("a"), cancion := ("b"), url := ("https://youtu.be/ok") },
                     { artista := ("c"), cancion := ("d"), url := ("") }],
          current_index := 0, random_mode := false, random_queue := [] } 1 =
      ({ tracks := [{ artista := ("a"), cancion := ("b"), url := ("https://youtu.be/ok") },
                    { artista := ("c"), cancion := ("d"), url := ("") }],
         current_index := 1, random_mode := false, random_queue := [] },
        PlayResult.resolveError) := by
  have h := c6_amended
      { tracks := [{ artista := ("a"), cancion := ("b"), url := ("https://youtu.be/ok") },
                   { artista := ("c"), cancion := ("d"), url := ("") }],
        current_index := 0, random_mode := false, random_queue := [] } 1
      (by decide) (by decide) (Or.inl (by decide))
  exact h.1

/-- C2: regenerating the random queue yields a permutation of the pool with
the excluded index removed exactly when it is present and the pool has more
than one element; with no exclusion the queue is a permutation of the pool;
and for a one-element pool whose element is also the excluded index, the
queue is exactly that one element. -/
theorem c2_prepare_random_queue (shuf : List Int → List Int)
    (hshuf : ∀ l : List Int, (shuf l).Perm l) (pool : List Int) (e : Int) :
    (prepare_random_queue shuf pool (some e)).Perm
        (if e ∈ pool ∧ 1 < pool.length then pool.erase e else pool) ∧
      (prepare_random_queue shuf pool none).Perm pool ∧
      prepare_random_queue shuf [e] (some e) = [e] := by
  refine ⟨hshuf _, hshuf _, ?_⟩
  have hcond : ¬ (e ∈ [e] ∧ 1 < ([e] : List Int).length) := by
    simp
  unfold prepare_random_queue
  have hred : (if e ∈ [e] ∧ 1 < ([e] : List Int).length then ([e] : List Int).erase e
      else [e]) = [e] := if_neg hcond
  simp only [hred]
  exact List.perm_singleton.mp (hshuf [e])

theorem c2_witness :
    (prepare_random_queue (fun l => l) [0, 1, 2] (some 1)).Perm
        (if (1 : Int) ∈ [(0 : Int), 1, 2] ∧ 1 < ([(0 : Int), 1, 2] : List Int).length
          then ([(0 : Int), 1, 2] : List Int).erase 1 else [(0 : Int), 1, 2]) ∧
      (prepare_random_queue (fun l => l) [0, 1, 2] none).Perm [(0 : Int), 1, 2] ∧
      prepare_random_queue (fun l => l) [(1 : Int)] (some 1) = [(1 : Int)] :=
  c2_prepare_random_queue (fun l => l) (fun l => List.Perm.refl l) [0, 1, 2] 1

theorem on_next_random_fst_ne_none (shuf : List Int → List Int) (pool : List Int)
    (st : PState) : (on_next_random shuf pool st).1 ≠ none := by
  rcases st with ⟨tk, c, rm, q⟩
  cases q with
  | cons x xs => simp [on_next_random, get_next_random_index]
  | nil =>
      cases hql : prepare_random_queue shuf pool (some c) with
      | nil => simp [on_next_random, hql, get_next_random_index]
      | cons y ys => simp [on_next_random, hql, get_next_random_index]

/-- C4 counterexample: with a non-empty catalog and an empty visible order,
advance does not return none; it falls back to the full catalog and plays
index 0. -/
theorem c4_counterexample :
    (on_next (fun l => l) []
        { tracks := [{ artista := ("a"), cancion := ("t"), url := ("") }],
          current_index := -1, random_mode := false, random_queue := [] }).1 = some 0 := by
  decide

/-- C4 amended: advance returns none exactly when the catalog is empty, in
both modes; an empty visible order with a non-empty catalog falls back to
the full catalog order instead of returning none. -/
theorem c4_amended (shuf : List Int → List Int) (visible : List Int) (st : PState) :
    (on_next shuf visible st).1 = none ↔ st.tracks = [] := by
  rcases st with ⟨tracks, c, rm, q⟩
  cases tracks with
  | nil => simp [on_next]
  | cons t ts =>
      cases rm with
      | false => simp [on_next]
      | true => simp [on_next, on_next_random_fst_ne_none]

/-- C1: with shuffle off and a non-empty visible order over a non-empty
catalog without duplicate rows, advance returns the cyclic successor of the
position of the current index, and the first visible track when the current
index is absent from the visible order (in particular when nothing is
current). -/
theorem c1_nonshuffle_advance (shuf : List Int → List Int) (visible : List Int)
    (st : PState) (hmode : st.random_mode = false) (ht : st.tracks ≠ [])
    (hnd : visible.Nodup) (p : Nat) (hp : p < visible.length) :
    (visible.get ⟨p, hp⟩ = st.current_index →
        (on_next shuf visible st).1 = visible[(p + 1) % visible.length]?) ∧
      (st.current_index ∉ visible → (on_next shuf visible st).1 = visible[0]?) := by
  have hvne : visible ≠ [] := by
    intro hcon
    rw [hcon] at hp
    exact absurd hp (by simp)
  have hlen0 : 0 < visible.length := by omega
  have hres : (on_next shuf visible st).1 = some (cyclic_next visible st.current_index) := by
    unfold on_next
    rw [if_neg (by simpa [List.isEmpty_iff] using ht)]
    rw [if_neg (by simp [hmode])]
    simp [List.isEmpty_iff, hvne]
  constructor
  · intro hcur
    have hmem : st.current_index ∈ visible := by
      rw [← hcur]
      exact visible.get_mem p hp
    have hidx : List.indexOf st.current_index visible = p := by
      rw [← hcur]
      exact List.indexOf_getElem hnd p hp
    have hlt : (p + 1) % visible.length < visible.length := Nat.mod_lt _ hlen0
    rw [hres]
    unfold cyclic_next
    rw [if_pos hmem, hidx]
    simp [List.getD_eq_getElem?_getD, List.getElem?_eq_getElem hlt]
  · intro hnot
    have hlt : 0 < visible.length := hlen0
    rw [hres]
    unfold cyclic_next
    rw [if_neg hnot]
    simp [List.getD_eq_getElem?_getD, List.getElem?_eq_getElem hlt]

theorem c1_witness :
    (on_next (fun l => l) [10, 20, 30]
        { tracks := [{ artista := ("x"), cancion := ("y"), url := ("z") }],
          current_index := 20, random_mode := false, random_queue := [] }).1 =
      [(10 : Int), 20, 30][(1 + 1) % 3]? :=
  (c1_nonshuffle_advance (fun l => l) [10, 20, 30]
      { tracks := [{ artista := ("x"), cancion := ("y"), url := ("z") }],
        current_index := 20, random_mode := false, random_queue := [] }
      rfl (by decide) (by decide) 1 (by decide)).1 (by decide)

/-- C7: loading sorts by the pair (lowercased artist, lowercased title)
under the deterministic total order of Python tuple comparison; the sort is
stable, so tracks with equal keys keep their original input order (the
filtered subsequence at any fixed key is unchanged by the sort); and on the
input b/2, a/1, a/2 the output order is a/1, a/2, b/2. -/
theorem c7_load_sorted (data : List RawRecord) :
    List.Sorted keyLE (scan_and_load data) ∧
      (∀ k : String × String,
          (scan_and_load data).filter (fun t => decide (trackKey t = k)) =
            (data.filterMap toTrack).filter (fun t => decide (trackKey t = k))) ∧
      scan_and_load
          [RawRecord.obj (some ("b")) (some ("2")) (some ("u1")),
           RawRecord.obj (some ("a")) (some ("1")) (some ("u2")),
           RawRecord.obj (some ("a")) (some ("2")) (some ("u3"))] =
        [{ artista := ("a"), cancion := ("1"), url := ("u2") },
         { artista := ("a"), cancion := ("2"), url := ("u3") },
         { artista := ("b"), cancion := ("2"), url := ("u1") }] := by
  refine ⟨?_, ?_, by decide⟩
  · haveI : IsTotal Track keyLE := ⟨keyLE_total⟩
    haveI : IsTrans Track keyLE := ⟨keyLE_trans⟩
    exact List.sorted_insertionSort keyLE _
  · intro k
    have hall : ∀ t ∈ (data.filterMap toTrack).filter (fun t => decide (trackKey t = k)),
        trackKey t = k := by
      intro t ht
      have hpt := List.of_mem_filter ht
      simpa using hpt
    have hpair : ((data.filterMap toTrack).filter
        (fun t => decide (trackKey t = k))).Pairwise keyLE := by
      apply List.pairwise_of_forall_mem_list
      intro a ha b hb
      have hka := hall a ha
      have hkb := hall b hb
      have hk : trackKey a = trackKey b := hka.trans hkb.symm
      have h1 : pyLower a.artista = pyLower b.artista := congrArg Prod.fst hk
      have h2 : pyLower a.cancion = pyLower b.cancion := congrArg Prod.snd hk
      unfold keyLE keyLeB
      simp [h1, h2, charListLe]
    have hstab : List.Sublist
        ((data.filterMap toTrack).filter (fun t => decide (trackKey t = k)))
        (scan_and_load data) :=
      List.sublist_insertionSort hpair (List.filter_sublist _)
    have hperm : ((scan_and_load data).filter (fun t => decide (trackKey t = k))).Perm
        ((data.filterMap toTrack).filter (fun t => decide (trackKey t = k))) :=
      (List.perm_insertionSort keyLE _).filter _
    have hsub2 : List.Sublist
        ((data.filterMap toTrack).filter (fun t => decide (trackKey t = k)))
        ((scan_and_load data).filter (fun t => decide (trackKey t = k))) := by
      have hff := List.Sublist.filter (fun t => decide (trackKey t = k)) hstab
      simpa [List.filter_filter] using hff
    exact (List.Sublist.eq_of_length hsub2 hperm.length_eq.symm).symm

/-- C10 counterexample: the host checks are substring tests, so a URL whose
host merely contains youtu.be, while being neither youtu.be nor youtube.com,
still yields an extracted id rather than none. -/
theorem c10_counterexample :
    youtube_id ("https://evilyoutu.be/abc123") = some ("abc123") ∧
      (urlparse ("https://evilyoutu.be/abc123")).netloc ≠ ("youtu.be").data ∧
      (urlparse ("https://evilyoutu.be/abc123")).netloc ≠ ("youtube.com").data := by
  decide

/-- C10 amended: the extractor is total by construction; any URL whose
lowercased host contains neither youtu.be nor youtube.com as a substring
yields none; the empty string yields none; and a youtu.be URL with an empty
path (with or without the slash) yields none. -/
theorem c10_amended :
    (∀ url : String,
        containsSub kwYoutuBe ((urlparse url).netloc.map Char.toLower) = false →
        containsSub kwYoutubeCom ((urlparse url).netloc.map Char.toLower) = false →
        youtube_id url = none) ∧
      youtube_id ("") = none ∧
      youtube_id ("https://youtu.be") = none ∧
      youtube_id ("https://youtu.be/") = none := by
  refine ⟨?_, by decide, by decide, by decide⟩
  intro url h1 h2
  unfold youtube_id
  simp only [h1, h2]
  simp

theorem c10_witness :
    youtube_id ("http://example.com/watch?v=abc") = none :=
  c10_amended.1 ("http://example.com/watch?v=abc") (by decide) (by decide)

theorem on_next_random_spec (shuf : List Int → List Int) (pool : List Int) (st : PState)
    (hshuf : ∀ l : List Int, (shuf l).Perm l) (hnd : pool.Nodup) (hlen : 2 ≤ pool.length)
    (hvalid : ∀ e ∈ pool, 0 ≤ e ∧ e < (st.tracks.length : Int))
    (hinv : queue_inv pool st) :
    ∃ x rest, on_next_random shuf pool st =
        (some x, { st with current_index := x, random_queue := rest }) ∧
      x ≠ st.current_index ∧ x ∈ pool ∧
      queue_inv pool { st with current_index := x, random_queue := rest } := by
  rcases st with ⟨tk, c, rm, q⟩
  obtain ⟨hq_nd, hq_nc, hq_sub⟩ := hinv
  cases q with
  | cons x xs =>
      have hxp : x ∈ pool := hq_sub (List.mem_cons_self x xs)
      have hv := hvalid x hxp
      refine ⟨x, xs, ?_, ?_, hxp, ?_⟩
      · have heq : on_next_random shuf pool ⟨tk, c, rm, x :: xs⟩ =
            (some x, (play_index ⟨tk, c, rm, xs⟩ x).1) := rfl
        rw [heq, play_index_fst_of_valid ⟨tk, c, rm, xs⟩ x hv.1 hv.2]
      · intro hcon
        exact hq_nc (hcon ▸ List.mem_cons_self x xs)
      · exact ⟨(List.nodup_cons.mp hq_nd).2, (List.nodup_cons.mp hq_nd).1,
          fun y hy => hq_sub (List.mem_cons_of_mem _ hy)⟩
  | nil =>
      have hpne : pool ≠ [] := by
        intro h
        rw [h] at hlen
        simp at hlen
      have hone : 1 < pool.length := by omega
      have hq0p : (prepare_random_queue shuf pool (some c)).Perm
          (if c ∈ pool ∧ 1 < pool.length then pool.erase c else pool) := hshuf _
      have hcond : (if c ∈ pool ∧ 1 < pool.length then pool.erase c else pool) =
          if c ∈ pool then pool.erase c else pool := by
        by_cases hc : c ∈ pool <;> simp [hc, hone]
      rw [hcond] at hq0p
      have hInd : (if c ∈ pool then pool.erase c else pool).Nodup := by
        by_cases hc : c ∈ pool <;> simp [hc, hnd, List.Nodup.erase]
      have hIc : c ∉ (if c ∈ pool then pool.erase c else pool) := by
        by_cases hc : c ∈ pool
        · rw [if_pos hc]
          exact hnd.not_mem_erase
        · rw [if_neg hc]
          exact hc
      have hIsub : (if c ∈ pool then pool.erase c else pool) ⊆ pool := by
        by_cases hc : c ∈ pool
        · rw [if_pos hc]
          exact fun y hy => List.mem_of_mem_erase hy
        · rw [if_neg hc]
          exact fun y hy => hy
      have hIne : (if c ∈ pool then pool.erase c else pool) ≠ [] := by
        by_cases hc : c ∈ pool
        · rw [if_pos hc]
          intro h
          have hl := congrArg List.length h
          rw [List.length_erase_of_mem hc] at hl
          simp at hl
          omega
        · rw [if_neg hc]
          exact hpne
      have hq0ne : prepare_random_queue shuf pool (some c) ≠ [] := by
        intro h
        have hl := hq0p.length_eq
        rw [h] at hl
        simp at hl
        exact hIne (List.length_eq_zero.mp hl.symm)
      obtain ⟨x, xs, hxxs⟩ := List.exists_cons_of_ne_nil hq0ne
      have hq0nd : (prepare_random_queue shuf pool (some c)).Nodup :=
        hq0p.nodup_iff.mpr hInd
      have hxq0 : x ∈ prepare_random_queue shuf pool (some c) := by
        rw [hxxs]
        exact List.mem_cons_self x xs
      have hxI : x ∈ (if c ∈ pool then pool.erase c else pool) := hq0p.subset hxq0
      have hxp : x ∈ pool := hIsub hxI
      have hxc : x ≠ c := fun h => hIc (h ▸ hxI)
      have hv := hvalid x hxp
      have hxsnd : (x :: xs).Nodup := hxxs ▸ hq0nd
      have hxs_sub : xs ⊆ pool := by
        intro y hy
        have hyq0 : y ∈ prepare_random_queue shuf pool (some c) := by
          rw [hxxs]
          exact List.mem_cons_of_mem _ hy
        exact hIsub (hq0p.subset hyq0)
      have h0 : on_next_random shuf pool ⟨tk, c, rm, []⟩ =
          (match (get_next_random_index (prepare_random_queue shuf pool (some c))).1 with
           | some nxt =>
               (some nxt, (play_index ⟨tk, c, rm,
                 (get_next_random_index (prepare_random_queue shuf pool (some c))).2⟩ nxt).1)
           | none =>
               (some (cyclic_next pool c), (play_index ⟨tk, c, rm,
                 (get_next_random_index (prepare_random_queue shuf pool (some c))).2⟩
                   (cyclic_next pool c)).1)) := rfl
      refine ⟨x, xs, ?_, hxc, hxp, ?_⟩
      · rw [h0, hxxs]
        show (some x, (play_index ⟨tk, c, rm, xs⟩ x).1) = _
        rw [play_index_fst_of_valid ⟨tk, c, rm, xs⟩ x hv.1 hv.2]
      · exact ⟨(List.nodup_cons.mp hxsnd).2, (List.nodup_cons.mp hxsnd).1, hxs_sub⟩

theorem run_next_chain_aux (visible : List Int) (hnd : visible.Nodup)
    (hlen : 2 ≤ visible.length) :
    ∀ (k : Nat) (shufs : Nat → List Int → List Int) (st : PState),
      (∀ i l, ((shufs i) l).Perm l) →
      (∀ e ∈ visible, 0 ≤ e ∧ e < (st.tracks.length : Int)) →
      st.random_mode = true → queue_inv visible st →
      List.Chain' (fun a b : Option Int => a ≠ b)
        (some st.current_index :: run_next shufs visible k st)
  | 0, _, st, _, _, _, _ => List.chain'_singleton _
  | k + 1, shufs, st, hshufs, hvalid, hmode, hinv => by
      have htr : st.tracks ≠ [] := by
        obtain ⟨e, he⟩ : ∃ e, e ∈ visible := by
          cases visible with
          | nil => simp at hlen
          | cons a l => exact ⟨a, List.mem_cons_self a l⟩
        have hev := hvalid e he
        intro hcon
        rw [hcon] at hev
        simp at hev
        omega
      have hvne : visible ≠ [] := by
        intro h
        rw [h] at hlen
        simp at hlen
      have heq : on_next (shufs 0) visible st = on_next_random (shufs 0) visible st := by
        unfold on_next
        rw [if_neg (by simpa [List.isEmpty_iff] using htr)]
        simp [List.isEmpty_iff, hvne, hmode]
      obtain ⟨x, rest, hstep, hne, hxp, hinv'⟩ :=
        on_next_random_spec (shufs 0) visible st (hshufs 0) hnd hlen hvalid hinv
      have hrun : run_next shufs visible (k + 1) st =
          some x :: run_next (fun n => shufs (n + 1)) visible k
            { st with current_index := x, random_queue := rest } := by
        simp only [run_next]
        rw [heq, hstep]
      rw [hrun]
      rw [List.chain'_cons]
      constructor
      · simpa using hne.symm
      · exact run_next_chain_aux visible hnd hlen k (fun n => shufs (n + 1))
          { st with current_index := x, random_queue := rest }
          (fun i l => hshufs (i + 1) l) hvalid hmode hinv'

/-- C3: in shuffle mode, over a fixed duplicate-free visible pool of at
least two valid indices, iterating advance never hands the same index to the
player twice in a row, for every sequence of shuffles and every state
satisfying the queue invariant (which holds whenever shuffle was just
enabled). -/
theorem c3_no_immediate_repeat (shufs : Nat → List Int → List Int)
    (hshufs : ∀ i l, ((shufs i) l).Perm l) (visible : List Int) (st : PState) (k : Nat)
    (hnd : visible.Nodup) (hlen : 2 ≤ visible.length)
    (hvalid : ∀ e ∈ visible, 0 ≤ e ∧ e < (st.tracks.length : Int))
    (hmode : st.random_mode = true) (hinv : queue_inv visible st) :
    List.Chain' (fun a b : Option Int => a ≠ b) (run_next shufs visible k st) :=
  (run_next_chain_aux visible hnd hlen k shufs st hshufs hvalid hmode hinv).tail

theorem c3_witness :
    List.Chain' (fun a b : Option Int => a ≠ b)
      (run_next (fun _ l => l) [0, 1] 5
        { tracks := [{ artista := ("a"), cancion := ("b"), url := ("u1") },
                     { artista := ("c"), cancion := ("d"), url := ("u2") }],
          current_index := -1, random_mode := true, random_queue := [] }) :=
  c3_no_immediate_repeat (fun _ l => l) (fun _ l => List.Perm.refl l) [0, 1]
    { tracks := [{ artista := ("a"), cancion := ("b"), url := ("u1") },
                 { artista := ("c"), cancion := ("d"), url := ("u2") }],
      current_index := -1, random_mode := true, random_queue := [] } 5
    (by decide) (by decide) (by decide) rfl
    ⟨List.nodup_nil, by simp, by simp⟩

end Reproductor
